import Mathlib

/-!
Shallow embedding of the MultiorbitalDGApy core (lambda correction,
Matsubara frequency helpers, interaction spin channels, many-body tensor
frequency folding, self-consistency loop and mixing strategies), together
with proofs of the specification claims about these operations.

Complex array entries are modelled as pairs of rationals (exact complex
arithmetic); numpy floating point round-off is below the resolution of this
model, which captures the exact algebra the source performs.
-/

namespace DGA

/-- Complex numbers with rational components, modelling the complex entries
of the numpy arrays in the source. Division follows the field formula
`(a+bi)/(c+di) = ((ac+bd)+(bc-ad)i)/(c²+d²)`; division by zero yields zero
(the claims never evaluate the sources at a division by zero). -/
structure Cx where
  re : ℚ
  im : ℚ
deriving DecidableEq, Repr

namespace Cx

def ofRat (q : ℚ) : Cx := ⟨q, 0⟩

def add (x y : Cx) : Cx := ⟨x.re + y.re, x.im + y.im⟩

def sub (x y : Cx) : Cx := ⟨x.re - y.re, x.im - y.im⟩

def mul (x y : Cx) : Cx := ⟨x.re * y.re - x.im * y.im, x.re * y.im + x.im * y.re⟩

def neg (x : Cx) : Cx := ⟨-x.re, -x.im⟩

/-- Squared modulus `re² + im²`. -/
def normSq (x : Cx) : ℚ := x.re * x.re + x.im * x.im

def inv (x : Cx) : Cx := ⟨x.re / x.normSq, -x.im / x.normSq⟩

def div (x y : Cx) : Cx := mul x (inv y)

/-- Complex conjugate. -/
def conj (x : Cx) : Cx := ⟨x.re, -x.im⟩

/-- Multiplication by a real (rational) scalar. -/
def rsmul (q : ℚ) (x : Cx) : Cx := ⟨q * x.re, q * x.im⟩

instance : Zero Cx := ⟨⟨0, 0⟩⟩

instance : One Cx := ⟨⟨1, 0⟩⟩

instance : Add Cx := ⟨add⟩

instance : Sub Cx := ⟨sub⟩

instance : Mul Cx := ⟨mul⟩

instance : Neg Cx := ⟨neg⟩

instance : Div Cx := ⟨div⟩

theorem zero_def : (0 : Cx) = ⟨0, 0⟩ := rfl

theorem one_def : (1 : Cx) = ⟨1, 0⟩ := rfl

theorem add_def (x y : Cx) : x + y = ⟨x.re + y.re, x.im + y.im⟩ := rfl

theorem sub_def (x y : Cx) : x - y = ⟨x.re - y.re, x.im - y.im⟩ := rfl

theorem mul_def (x y : Cx) :
    x * y = ⟨x.re * y.re - x.im * y.im, x.re * y.im + x.im * y.re⟩ := rfl

theorem neg_def (x : Cx) : -x = ⟨-x.re, -x.im⟩ := rfl

theorem div_def (x y : Cx) : x / y = Cx.mul x (Cx.inv y) := rfl

theorem re_zero : (0 : Cx).re = 0 := rfl

theorem im_zero : (0 : Cx).im = 0 := rfl

theorem re_mk (a b : ℚ) : (Cx.mk a b).re = a := rfl

theorem im_mk (a b : ℚ) : (Cx.mk a b).im = b := rfl

theorem normSq_eq_zero_iff (x : Cx) : x.normSq = 0 ↔ x = ⟨0, 0⟩ := by
  cases x with
  | mk a b =>
    simp only [normSq, Cx.mk.injEq]
    constructor
    · intro h
      constructor <;> nlinarith [mul_self_nonneg a, mul_self_nonneg b]
    · rintro ⟨rfl, rfl⟩; ring

/-- `1/(1/z) = z` for exact complex (rational) arithmetic, including `z = 0`
under the junk-value convention `1/0 = 0`. -/
theorem inv_inv (z : Cx) : z.inv.inv = z := by
  by_cases h : z.normSq = 0
  · have hz : z = ⟨0, 0⟩ := (normSq_eq_zero_iff z).mp h
    subst hz
    simp [inv, normSq]
  · cases z with
    | mk a b =>
      simp only [normSq] at h
      have hm : (⟨a, b⟩ : Cx).inv.normSq = 1 / (a * a + b * b) := by
        simp only [inv, normSq]
        field_simp
      simp only [inv, normSq] at hm ⊢
      rw [hm]
      simp only [Cx.mk.injEq, one_div, div_inv_eq_mul, neg_div, neg_neg]
      constructor <;> exact div_mul_cancel₀ _ h

end Cx

/-! ## Frequency shift conventions (src/scdga/matsubara_frequencies.py)

`FrequencyShift` is the enum of bubble frequency-shift conventions and
`get_frequency_shift` is `MFHelper.get_frequency_shift`. Python's `//` and
`%` are floor division and the non-negative remainder for positive modulus,
embedded as `Int.fdiv` / `Int.fmod`. The `NONE` convention raises
`NotImplementedError` in the source, embedded as `Except.error`. -/

inductive FrequencyShift where
  | MINUS
  | PLUS
  | CENTER
  | NONE
deriving DecidableEq, Repr

open FrequencyShift in
/-- Embedding of `MFHelper.get_frequency_shift(wn, freq_notation)`; the
second parameter is the frequency-shift convention. -/
def get_frequency_shift (wn : ℤ) (convention : FrequencyShift) :
    Except String (ℤ × ℤ) :=
  match convention with
  | PLUS => .ok (0, wn)
  | MINUS => .ok (0, -wn)
  | CENTER => .ok (Int.fdiv wn 2, -(Int.fdiv wn 2 + Int.fmod wn 2))
  | NONE => .error "Frequency notation is not in list."

theorem int_fdiv_two_eq_floor (w : ℤ) : Int.fdiv w 2 = ⌊(w : ℚ) / 2⌋ := by
  rw [Int.fdiv_eq_ediv w (by norm_num)]
  have := Rat.floor_intCast_div_natCast w 2
  simp only [Nat.cast_ofNat] at this
  omega

theorem int_fmod_two_eq_emod (w : ℤ) : Int.fmod w 2 = w % 2 := by
  have h1 : Int.fmod w 2 = w - 2 * Int.fdiv w 2 := by
    have := Int.fmod_add_fdiv w 2
    linarith
  rw [h1, Int.fdiv_eq_ediv w (by norm_num)]
  omega

/-! ## dtype casting at construction (src/src/n_point_base.py, IHaveMat) -/

/-- numpy dtypes relevant to the model. -/
inductive DType where
  | float32
  | float64
  | complex64
  | complex128
deriving DecidableEq, Repr

/-- A numpy array: a dtype tag together with its (complex-valued) payload.
Only the dtype tag is tracked exactly; `astype` value round-off is below the
resolution of this model. -/
structure NDArray where
  dtype : DType
  data : List Cx
deriving DecidableEq, Repr

/-- `ndarray.astype(dt)`: returns an array whose dtype is `dt`. -/
def NDArray.astype (a : NDArray) (dt : DType) : NDArray := ⟨dt, a.data⟩

/-- The state of an `IHaveMat` object: the stored `_mat` array. -/
structure IHaveMat where
  _mat : NDArray
deriving DecidableEq, Repr

/-- `IHaveMat.__init__`: stores `mat.astype(np.complex64)`. -/
def IHaveMat.init (mat : NDArray) : IHaveMat := ⟨mat.astype DType.complex64⟩

/-- The `mat` property setter: `self._mat = value`, with no cast. -/
def IHaveMat.setMat (self : IHaveMat) (value : NDArray) : IHaveMat :=
  { self with _mat := value }

/-! ## Lambda correction (src/scdga/lambda_correction.py)

`chi_r_mat` as used by `find_lambda` is the squeezed two-axis array of shape
`(n_q, n_w)`: one row per irreducible momentum point, each row running over
the stored bosonic frequencies. It is embedded as `List (List Cx)`. The
globals `config.sys.beta`, `config.lattice.q_grid.nk_tot` and
`config.lattice.q_grid.irrk_count` are passed as explicit parameters
`beta`, `nk_tot` and `irrk_count`. -/

/-- The sum of a list of complex entries (`ndarray.sum()` over one axis). -/
def csum (l : List Cx) : Cx := l.foldr (fun a b => a + b) 0

/-- `np.min` over a list of rationals; the sources never call it on an empty
array (numpy would raise), so the empty case carries junk value 0. -/
def listMin : List ℚ → ℚ
  | [] => 0
  | x :: xs => xs.foldl min x

/-- Embedding of `get_lambda_start(chi_r)`:
`w0 = chi_r.shape[-1] // 2; return -np.min(1.0 / chi_r[..., w0].real)`. -/
def get_lambda_start (chi_r : List (List Cx)) : ℚ :=
  -(listMin (chi_r.map fun row =>
    1 / (row.getD ((chi_r.headD []).length / 2) 0).re))

/-- Embedding of `apply_lambda(chi_r, lambda_)`: elementwise
`1.0 / (1.0 / chi_r + lambda_)` (the float scalar adds to the real part). -/
def apply_lambda (chi_r : List (List Cx)) (lambda_ : ℚ) : List (List Cx) :=
  chi_r.map fun row => row.map fun z => Cx.inv (z.inv + Cx.ofRat lambda_)

/-- The irreducible-wedge-weighted sum over the whole array:
`(irrk_count[:, None] * chi_lam).sum()` — note that `.sum()` runs over the
momentum axis AND the entire stored bosonic frequency axis. -/
def weighted_sum (irrk_count : List ℚ) (chi : List (List Cx)) : Cx :=
  csum ((List.zip irrk_count chi).map fun p => Cx.rsmul p.1 (csum p.2))

/-- `chir_sum` of the `find_lambda` loop body:
`(irrk_count[:, None] * chi_lam).sum() * factor` with
`factor = 1 / beta / nk_tot`. -/
def chir_sum (irrk_count : List ℚ) (beta nk_tot : ℚ) (chi_lam : List (List Cx)) : Cx :=
  Cx.rsmul (1 / beta / nk_tot) (weighted_sum irrk_count chi_lam)

/-- `f_lam = chir_sum - chi_r_loc_sum` evaluated at `lambda_`. -/
def f_lam (chi_r : List (List Cx)) (chi_r_loc_sum : Cx) (irrk_count : List ℚ)
    (beta nk_tot lambda_ : ℚ) : Cx :=
  chir_sum irrk_count beta nk_tot (apply_lambda chi_r lambda_) - chi_r_loc_sum

/-- `fp_lam = -(irrk_count[:, None] * chi_lam**2).sum() * factor`, the
closed-form derivative of the weighted sum of `1/(1/chi+lambda)`. -/
def fp_lam (chi_r : List (List Cx)) (irrk_count : List ℚ)
    (beta nk_tot lambda_ : ℚ) : Cx :=
  Cx.neg (Cx.rsmul (1 / beta / nk_tot) (weighted_sum irrk_count
    ((apply_lambda chi_r lambda_).map fun row => row.map fun z => z * z)))

/-- One Newton update: `lambda_new = lambda_ - (f_lam / fp_lam).real`. -/
def lambda_newton_step (chi_r : List (List Cx)) (chi_r_loc_sum : Cx)
    (irrk_count : List ℚ) (beta nk_tot lambda_ : ℚ) : ℚ :=
  lambda_ - (Cx.div (f_lam chi_r chi_r_loc_sum irrk_count beta nk_tot lambda_)
    (fp_lam chi_r irrk_count beta nk_tot lambda_)).re

/-- The state update of one non-returning `find_lambda` iteration on the pair
`(lambda_, delta)`: if the Newton step decreases lambda, halve `delta` and
restart from `lambda_start + delta`; otherwise accept the Newton iterate. -/
def lambda_step_state (chi_r : List (List Cx)) (chi_r_loc_sum : Cx)
    (irrk_count : List ℚ) (beta nk_tot lambda_start : ℚ) (p : ℚ × ℚ) : ℚ × ℚ :=
  let lambda_new := lambda_newton_step chi_r chi_r_loc_sum irrk_count beta nk_tot p.1
  if lambda_new < p.1 then (lambda_start + p.2 / 2, p.2 / 2) else (lambda_new, p.2)

/-- The `(lambda_, delta)` state after `k` iterations of `find_lambda`
starting from state `p` (the residual check only causes an early return and
does not alter the state evolution). -/
def lambda_orbit (chi_r : List (List Cx)) (chi_r_loc_sum : Cx)
    (irrk_count : List ℚ) (beta nk_tot lambda_start : ℚ) : ℕ → ℚ × ℚ → ℚ × ℚ
  | 0, p => p
  | k + 1, p => lambda_orbit chi_r chi_r_loc_sum irrk_count beta nk_tot lambda_start k
      (lambda_step_state chi_r chi_r_loc_sum irrk_count beta nk_tot lambda_start p)

/-- The `for` loop of `find_lambda`, fuelled by the remaining iteration
count, carrying the `(lambda_, delta)` state. Each iteration computes the
Newton iterate `lambda_new`; if `abs(f_lam.real) < eps` it returns
`lambda_new`, otherwise the state is updated by `lambda_step_state`.
When the fuel runs out the current `lambda_` is returned (no error). -/
def find_lambda_go (chi_r : List (List Cx)) (chi_r_loc_sum : Cx)
    (irrk_count : List ℚ) (beta nk_tot lambda_start eps : ℚ) : ℕ → ℚ × ℚ → ℚ
  | 0, p => p.1
  | n + 1, p =>
    if |(f_lam chi_r chi_r_loc_sum irrk_count beta nk_tot p.1).re| < eps then
      lambda_newton_step chi_r chi_r_loc_sum irrk_count beta nk_tot p.1
    else
      find_lambda_go chi_r chi_r_loc_sum irrk_count beta nk_tot lambda_start eps n
        (lambda_step_state chi_r chi_r_loc_sum irrk_count beta nk_tot lambda_start p)

/-- Embedding of `find_lambda(chi_r_mat, chi_r_loc_sum, lambda_start, delta,
eps, maxiter)` (source defaults: `delta=0.1`, `eps=1e-7`, `maxiter=1000`).
The iteration starts from `lambda_ = lambda_start + delta`. -/
def find_lambda (chi_r : List (List Cx)) (chi_r_loc_sum : Cx)
    (irrk_count : List ℚ) (beta nk_tot lambda_start delta eps : ℚ)
    (maxiter : ℕ) : ℚ :=
  find_lambda_go chi_r chi_r_loc_sum irrk_count beta nk_tot lambda_start eps maxiter
    (lambda_start + delta, delta)

/-- The spec reading of the lambda-correction target: the irreducible-wedge
weighted momentum sum of a susceptibility at `w = 0` ONLY (index
`shape[-1] // 2` of each row), normalized by `1 / (beta * N_q)`. Follows the
claim wording; compare with `chir_sum`, which the source computes over the
whole stored bosonic frequency range. -/
def w0_weighted_sum (irrk_count : List ℚ) (beta nk_tot : ℚ)
    (chi : List (List Cx)) : Cx :=
  Cx.rsmul (1 / beta / nk_tot) (csum ((List.zip irrk_count chi).map
    fun p => Cx.rsmul p.1 (p.2.getD (p.2.length / 2) 0)))

/-- Variant of `find_lambda` following the claim wording of C2: the restart
condition compares the Newton iterate against `lambda_0 = lambda_start`
(undershooting the positivity bound) instead of against the current
`lambda_`. Written only to be contrasted with `find_lambda`. -/
def find_lambda_claim_variant_go (chi_r : List (List Cx)) (chi_r_loc_sum : Cx)
    (irrk_count : List ℚ) (beta nk_tot lambda_start eps : ℚ) : ℕ → ℚ × ℚ → ℚ
  | 0, p => p.1
  | n + 1, p =>
    if |(f_lam chi_r chi_r_loc_sum irrk_count beta nk_tot p.1).re| < eps then
      lambda_newton_step chi_r chi_r_loc_sum irrk_count beta nk_tot p.1
    else if lambda_newton_step chi_r chi_r_loc_sum irrk_count beta nk_tot p.1 <
        lambda_start then
      find_lambda_claim_variant_go chi_r chi_r_loc_sum irrk_count beta nk_tot
        lambda_start eps n (lambda_start + p.2 / 2, p.2 / 2)
    else
      find_lambda_claim_variant_go chi_r chi_r_loc_sum irrk_count beta nk_tot
        lambda_start eps n
        (lambda_newton_step chi_r chi_r_loc_sum irrk_count beta nk_tot p.1, p.2)

/-- Entry point of the claim-wording variant of `find_lambda`. -/
def find_lambda_claim_variant (chi_r : List (List Cx)) (chi_r_loc_sum : Cx)
    (irrk_count : List ℚ) (beta nk_tot lambda_start delta eps : ℚ)
    (maxiter : ℕ) : ℚ :=
  find_lambda_claim_variant_go chi_r chi_r_loc_sum irrk_count beta nk_tot
    lambda_start eps maxiter (lambda_start + delta, delta)

lemma list_map_id_of {α : Type} (f : α → α) (h : ∀ x, f x = x) :
    ∀ l : List α, l.map f = l := by
  intro l
  induction l with
  | nil => rfl
  | cons x xs ih => simp [h, ih]

lemma apply_lambda_zero (chi_r : List (List Cx)) : apply_lambda chi_r 0 = chi_r := by
  have hg : ∀ z : Cx, Cx.inv (z.inv + Cx.ofRat 0) = z := by
    intro z
    have h1 : z.inv + Cx.ofRat 0 = z.inv := by
      show Cx.add _ _ = _
      simp [Cx.add, Cx.ofRat]
    rw [h1, Cx.inv_inv]
  exact list_map_id_of _ (fun row => list_map_id_of _ hg row) chi_r

lemma find_lambda_go_no_trigger (chi_r : List (List Cx)) (chi_r_loc_sum : Cx)
    (irrk_count : List ℚ) (beta nk_tot lambda_start eps : ℚ) (n : ℕ) :
    ∀ p : ℚ × ℚ,
    (∀ j, j < n → ¬ |(f_lam chi_r chi_r_loc_sum irrk_count beta nk_tot
      (lambda_orbit chi_r chi_r_loc_sum irrk_count beta nk_tot lambda_start j p).1).re| < eps) →
    find_lambda_go chi_r chi_r_loc_sum irrk_count beta nk_tot lambda_start eps n p =
      (lambda_orbit chi_r chi_r_loc_sum irrk_count beta nk_tot lambda_start n p).1 := by
  induction n with
  | zero => intro p _; rfl
  | succ n ih =>
    intro p h
    have h0 : ¬ |(f_lam chi_r chi_r_loc_sum irrk_count beta nk_tot p.1).re| < eps := by
      have := h 0 (by omega)
      simpa [lambda_orbit] using this
    simp only [find_lambda_go, if_neg h0]
    have horb : ∀ j, lambda_orbit chi_r chi_r_loc_sum irrk_count beta nk_tot lambda_start (j + 1) p
        = lambda_orbit chi_r chi_r_loc_sum irrk_count beta nk_tot lambda_start j
          (lambda_step_state chi_r chi_r_loc_sum irrk_count beta nk_tot lambda_start p) :=
      fun j => rfl
    rw [show lambda_orbit chi_r chi_r_loc_sum irrk_count beta nk_tot lambda_start (n + 1) p
        = lambda_orbit chi_r chi_r_loc_sum irrk_count beta nk_tot lambda_start n
          (lambda_step_state chi_r chi_r_loc_sum irrk_count beta nk_tot lambda_start p) from rfl]
    exact ih _ (fun j hj => by rw [← horb j]; exact h (j + 1) (by omega))

lemma find_lambda_go_first_trigger (chi_r : List (List Cx)) (chi_r_loc_sum : Cx)
    (irrk_count : List ℚ) (beta nk_tot lambda_start eps : ℚ) (n : ℕ) :
    ∀ (k : ℕ) (p : ℚ × ℚ), k < n →
    (∀ j, j < k → ¬ |(f_lam chi_r chi_r_loc_sum irrk_count beta nk_tot
      (lambda_orbit chi_r chi_r_loc_sum irrk_count beta nk_tot lambda_start j p).1).re| < eps) →
    |(f_lam chi_r chi_r_loc_sum irrk_count beta nk_tot
      (lambda_orbit chi_r chi_r_loc_sum irrk_count beta nk_tot lambda_start k p).1).re| < eps →
    find_lambda_go chi_r chi_r_loc_sum irrk_count beta nk_tot lambda_start eps n p =
      lambda_newton_step chi_r chi_r_loc_sum irrk_count beta nk_tot
        (lambda_orbit chi_r chi_r_loc_sum irrk_count beta nk_tot lambda_start k p).1 := by
  induction n with
  | zero => intro k p hk; omega
  | succ n ih =>
    intro k p hk hprev htrig
    match k with
    | 0 =>
      have h0 : |(f_lam chi_r chi_r_loc_sum irrk_count beta nk_tot p.1).re| < eps := by
        simpa [lambda_orbit] using htrig
      simp only [find_lambda_go, if_pos h0]
      simp [lambda_orbit]
    | k + 1 =>
      have h0 : ¬ |(f_lam chi_r chi_r_loc_sum irrk_count beta nk_tot p.1).re| < eps := by
        have := hprev 0 (by omega)
        simpa [lambda_orbit] using this
      simp only [find_lambda_go, if_neg h0]
      exact ih k (lambda_step_state chi_r chi_r_loc_sum irrk_count beta nk_tot lambda_start p)
        (by omega)
        (fun j hj => by
          have := hprev (j + 1) (by omega)
          exact this)
        htrig

/-- C1 (amended): whenever `find_lambda` terminates through its residual
check — first satisfied at the k-th loop iterate `lambda_k` — it is that
PRE-update iterate which certifies the target: the irreducible-wedge-weighted
momentum sum of `apply_lambda(chi, lambda_k)` over the WHOLE stored bosonic
frequency range (not only `w = 0`), normalized by `1/(beta*N_q)`, equals `S`
within `eps`; the value returned is one further Newton step beyond
`lambda_k`. Moreover `apply_lambda(chi, 0) = chi` elementwise for every
`chi`. -/
theorem claim_C1_lambda_residual_certifies_previous_iterate
    (chi_r : List (List Cx)) (chi_r_loc_sum : Cx) (irrk_count : List ℚ)
    (beta nk_tot lambda_start delta eps : ℚ) (maxiter : ℕ) :
    apply_lambda chi_r 0 = chi_r ∧
    ∀ k, k < maxiter →
      (∀ j, j < k → ¬ |(chir_sum irrk_count beta nk_tot (apply_lambda chi_r
        (lambda_orbit chi_r chi_r_loc_sum irrk_count beta nk_tot lambda_start j
          (lambda_start + delta, delta)).1) - chi_r_loc_sum).re| < eps) →
      |(chir_sum irrk_count beta nk_tot (apply_lambda chi_r
        (lambda_orbit chi_r chi_r_loc_sum irrk_count beta nk_tot lambda_start k
          (lambda_start + delta, delta)).1) - chi_r_loc_sum).re| < eps →
      find_lambda chi_r chi_r_loc_sum irrk_count beta nk_tot lambda_start delta eps maxiter =
        lambda_newton_step chi_r chi_r_loc_sum irrk_count beta nk_tot
          (lambda_orbit chi_r chi_r_loc_sum irrk_count beta nk_tot lambda_start k
            (lambda_start + delta, delta)).1 :=
  ⟨apply_lambda_zero chi_r, fun k hk hprev htrig =>
    find_lambda_go_first_trigger chi_r chi_r_loc_sum irrk_count beta nk_tot
      lambda_start eps maxiter k (lambda_start + delta, delta) hk hprev htrig⟩

/-- Witness for C1: a one-point susceptibility where the residual check fires
at the very first iterate `lambda = 0 + 1/10` with residual zero; the
returned value is the Newton step taken from there (here again `1/10` since
the residual is exactly zero). -/
theorem claim_C1_witness :
    find_lambda [[(⟨1, 0⟩ : Cx)]] ⟨10/11, 0⟩ [1] 1 1 0 (1/10) (1/10000000) 1 = 1/10 := by
  have h := (claim_C1_lambda_residual_certifies_previous_iterate
    [[(⟨1, 0⟩ : Cx)]] ⟨10/11, 0⟩ [1] 1 1 0 (1/10) (1/10000000) 1).2
    0 (by omega) (fun j hj => absurd hj (by omega))
    (by norm_num [lambda_orbit, chir_sum, weighted_sum, apply_lambda, csum, Cx.inv, Cx.ofRat,
      Cx.rsmul, Cx.normSq, Cx.add_def, Cx.sub_def, Cx.zero_def, Cx.re_zero, Cx.im_zero,
      Cx.re_mk, Cx.im_mk, abs_lt])
  rw [h]
  norm_num [lambda_orbit, lambda_newton_step, f_lam, fp_lam, chir_sum, weighted_sum,
    apply_lambda, csum, Cx.inv, Cx.ofRat, Cx.rsmul, Cx.div, Cx.mul, Cx.neg, Cx.normSq,
    Cx.add_def, Cx.sub_def, Cx.zero_def, Cx.mul_def, Cx.neg_def, Cx.re_zero, Cx.im_zero,
    Cx.re_mk, Cx.im_mk]

/-- C1 counterexample: at `chi = [[1,1,1]]` (one momentum point, three stored
bosonic frequencies, beta = N_q = 1, weight 1), target `S = 1/4000000`,
`lambda_start = 191999989/10`, the residual check fires at the first iterate
but the RETURNED lambda (7679999, one Newton step further) misses the target
by more than `eps = 1e-7` under both readings: the `w = 0` weighted sum of
the claim text is off by `23/192000000 > 1e-7`, and the whole-range weighted
sum the code actually checks is off by `9/64000000 > 1e-7`. -/
theorem claim_C1_counterexample :
    find_lambda [[(⟨1, 0⟩ : Cx), ⟨1, 0⟩, ⟨1, 0⟩]] ⟨1/4000000, 0⟩ [1] 1 1
      (191999989/10) (1/10) (1/10000000) 1000 = 7679999 ∧
    ¬ |(w0_weighted_sum [1] 1 1 (apply_lambda [[(⟨1, 0⟩ : Cx), ⟨1, 0⟩, ⟨1, 0⟩]] 7679999)
        - ⟨1/4000000, 0⟩).re| < 1/10000000 ∧
    (w0_weighted_sum [1] 1 1 (apply_lambda [[(⟨1, 0⟩ : Cx), ⟨1, 0⟩, ⟨1, 0⟩]] 7679999)
        - ⟨1/4000000, 0⟩).im = 0 ∧
    ¬ |(chir_sum [1] 1 1 (apply_lambda [[(⟨1, 0⟩ : Cx), ⟨1, 0⟩, ⟨1, 0⟩]] 7679999)
        - ⟨1/4000000, 0⟩).re| < 1/10000000 := by
  have hcond : |(f_lam [[(⟨1, 0⟩ : Cx), ⟨1, 0⟩, ⟨1, 0⟩]] ⟨1/4000000, 0⟩ [1] 1 1
      (lambda_orbit [[(⟨1, 0⟩ : Cx), ⟨1, 0⟩, ⟨1, 0⟩]] ⟨1/4000000, 0⟩ [1] 1 1
        (191999989/10) 0 (191999989/10 + 1/10, 1/10)).1).re| < 1/10000000 := by
    norm_num [lambda_orbit, f_lam, chir_sum, weighted_sum, apply_lambda, csum, Cx.inv,
      Cx.ofRat, Cx.rsmul, Cx.normSq, Cx.add_def, Cx.sub_def, Cx.zero_def, Cx.re_zero,
      Cx.im_zero, Cx.re_mk, Cx.im_mk, abs_lt]
  have h0 := find_lambda_go_first_trigger [[(⟨1, 0⟩ : Cx), ⟨1, 0⟩, ⟨1, 0⟩]] ⟨1/4000000, 0⟩
    [1] 1 1 (191999989/10) (1/10000000) 1000 0 (191999989/10 + 1/10, 1/10)
    (by omega) (fun j hj => absurd hj (by omega)) hcond
  refine ⟨?_, ?_, ?_, ?_⟩
  · show find_lambda_go [[(⟨1, 0⟩ : Cx), ⟨1, 0⟩, ⟨1, 0⟩]] ⟨1/4000000, 0⟩ [1] 1 1
      (191999989/10) (1/10000000) 1000 (191999989/10 + 1/10, 1/10) = 7679999
    rw [h0]
    norm_num [lambda_orbit, lambda_newton_step, f_lam, fp_lam, chir_sum, weighted_sum,
      apply_lambda, csum, Cx.inv, Cx.ofRat, Cx.rsmul, Cx.div, Cx.mul, Cx.neg, Cx.normSq,
      Cx.add_def, Cx.sub_def, Cx.zero_def, Cx.mul_def, Cx.neg_def, Cx.re_zero, Cx.im_zero,
      Cx.re_mk, Cx.im_mk]
  all_goals
    norm_num [w0_weighted_sum, chir_sum, weighted_sum, apply_lambda, csum, Cx.inv, Cx.ofRat,
      Cx.rsmul, Cx.normSq, Cx.add_def, Cx.sub_def, Cx.zero_def, Cx.re_zero, Cx.im_zero,
      Cx.re_mk, Cx.im_mk, abs_lt]

/-- C2 (amended): `find_lambda` starts its iteration from
`lambda_start + delta` (in the pipeline `lambda_start` is
`get_lambda_start(chi) = -min(1/Re chi(q, w=0))` and `delta = 0.1`); whenever
the Newton iterate is smaller than the CURRENT lambda (not: whenever it
undershoots `lambda_0`), `delta` is halved and the iteration restarts from
`lambda_start + delta`; otherwise the Newton iterate is accepted; and if the
residual never drops below `eps`, the current lambda estimate after `maxiter`
iterations is returned rather than raising an error. -/
theorem claim_C2_restart_on_decreasing_newton_step
    (chi_r : List (List Cx)) (chi_r_loc_sum : Cx) (irrk_count : List ℚ)
    (beta nk_tot lambda_start delta eps : ℚ) (maxiter : ℕ) :
    lambda_orbit chi_r chi_r_loc_sum irrk_count beta nk_tot lambda_start 0
      (lambda_start + delta, delta) = (lambda_start + delta, delta) ∧
    (∀ p : ℚ × ℚ, lambda_newton_step chi_r chi_r_loc_sum irrk_count beta nk_tot p.1 < p.1 →
      lambda_step_state chi_r chi_r_loc_sum irrk_count beta nk_tot lambda_start p =
        (lambda_start + p.2 / 2, p.2 / 2)) ∧
    (∀ p : ℚ × ℚ, ¬ lambda_newton_step chi_r chi_r_loc_sum irrk_count beta nk_tot p.1 < p.1 →
      lambda_step_state chi_r chi_r_loc_sum irrk_count beta nk_tot lambda_start p =
        (lambda_newton_step chi_r chi_r_loc_sum irrk_count beta nk_tot p.1, p.2)) ∧
    ((∀ j, j < maxiter → ¬ |(f_lam chi_r chi_r_loc_sum irrk_count beta nk_tot
        (lambda_orbit chi_r chi_r_loc_sum irrk_count beta nk_tot lambda_start j
          (lambda_start + delta, delta)).1).re| < eps) →
      find_lambda chi_r chi_r_loc_sum irrk_count beta nk_tot lambda_start delta eps maxiter =
        (lambda_orbit chi_r chi_r_loc_sum irrk_count beta nk_tot lambda_start maxiter
          (lambda_start + delta, delta)).1) :=
  ⟨rfl,
   fun p h => by simp only [lambda_step_state, if_pos h],
   fun p h => by simp only [lambda_step_state, if_neg h],
   fun h => find_lambda_go_no_trigger chi_r chi_r_loc_sum irrk_count beta nk_tot
     lambda_start eps maxiter (lambda_start + delta, delta) h⟩

/-- Witness for C2: at `chi = [[1]]`, `S = 12`, `lambda_start = -1`,
`delta = 1/10`, one iteration: the Newton step from `-9/10` lands at
`-23/25 < -9/10`, so delta is halved and the loop restarts from
`-1 + 1/20 = -19/20`, which the exhausted budget then returns. -/
theorem claim_C2_witness :
    find_lambda [[(⟨1, 0⟩ : Cx)]] ⟨12, 0⟩ [1] 1 1 (-1) (1/10) (1/10000000) 1 = -19/20 := by
  have h := (claim_C2_restart_on_decreasing_newton_step
    [[(⟨1, 0⟩ : Cx)]] ⟨12, 0⟩ [1] 1 1 (-1) (1/10) (1/10000000) 1).2.2.2
    (fun j hj => by
      have hj0 : j = 0 := by omega
      subst hj0
      norm_num [lambda_orbit, f_lam, chir_sum, weighted_sum, apply_lambda, csum, Cx.inv,
        Cx.ofRat, Cx.rsmul, Cx.normSq, Cx.add_def, Cx.sub_def, Cx.zero_def, Cx.re_zero,
        Cx.im_zero, Cx.re_mk, Cx.im_mk, abs_lt])
  rw [h]
  norm_num [lambda_orbit, lambda_step_state, lambda_newton_step, f_lam, fp_lam, chir_sum,
    weighted_sum, apply_lambda, csum, Cx.inv, Cx.ofRat, Cx.rsmul, Cx.div, Cx.mul, Cx.neg,
    Cx.normSq, Cx.add_def, Cx.sub_def, Cx.zero_def, Cx.mul_def, Cx.neg_def, Cx.re_zero,
    Cx.im_zero, Cx.re_mk, Cx.im_mk]

/-- C2 counterexample: at `chi = [[1]]`, `S = 12`, starting from
`lambda_0 = get_lambda_start(chi) = -1` with `delta = 1/10`: the first Newton
iterate is `-23/25`, which is SMALLER than the current lambda `-9/10` but
does NOT undershoot `lambda_0 = -1` — yet the code halves delta and restarts,
returning `-19/20`, whereas the algorithm described by the claim (restart
only on undershooting `lambda_0`) would accept the Newton iterate and return
`-23/25`. -/
theorem claim_C2_counterexample :
    find_lambda [[(⟨1, 0⟩ : Cx)]] ⟨12, 0⟩ [1] 1 1 (get_lambda_start [[(⟨1, 0⟩ : Cx)]])
      (1/10) (1/10000000) 1 = -19/20 ∧
    find_lambda_claim_variant [[(⟨1, 0⟩ : Cx)]] ⟨12, 0⟩ [1] 1 1
      (get_lambda_start [[(⟨1, 0⟩ : Cx)]]) (1/10) (1/10000000) 1 = -23/25 ∧
    get_lambda_start [[(⟨1, 0⟩ : Cx)]] = -1 ∧
    lambda_newton_step [[(⟨1, 0⟩ : Cx)]] ⟨12, 0⟩ [1] 1 1 (-9/10) = -23/25 ∧
    (-1 : ℚ) < -23/25 ∧ ((-19/20 : ℚ) ≠ -23/25) := by
  refine ⟨?_, ?_, ?_, ?_, by norm_num, by norm_num⟩ <;>
    norm_num [find_lambda, find_lambda_go, find_lambda_claim_variant,
      find_lambda_claim_variant_go, get_lambda_start, listMin, f_lam, fp_lam, chir_sum,
      weighted_sum, apply_lambda, csum, lambda_step_state, lambda_newton_step, Cx.inv,
      Cx.ofRat, Cx.rsmul, Cx.div, Cx.mul, Cx.neg, Cx.normSq, Cx.add_def, Cx.sub_def,
      Cx.zero_def, Cx.mul_def, Cx.neg_def, Cx.re_zero, Cx.im_zero, Cx.re_mk, Cx.im_mk, abs_lt]

/-! ## Spin channels and interactions (src/src/interaction.py) -/

/-- The spin channels `SpinChannel` used by the interactions. -/
inductive SpinChannel where
  | NONE
  | DENS
  | MAGN
  | SING
  | TRIP
deriving DecidableEq, Repr

/-- Local interaction `U_{abcd}`: a four-orbital tensor together with its
spin-channel tag (`LocalInteraction`, which mixes `IHaveMat` and
`IHaveChannel`). -/
structure LocalInteraction (n : ℕ) where
  mat : Fin n → Fin n → Fin n → Fin n → Cx
  channel : SpinChannel

namespace LocalInteraction

/-- `permute_orbitals("abcd->adcb")` — the only permutation `as_channel`
uses. A permutation string with equal sides returns `self` unchanged, so
only this one matters here. -/
def permute_adcb {n : ℕ} (u : LocalInteraction n) : LocalInteraction n :=
  ⟨fun a b c d => u.mat a d c b, u.channel⟩

/-- Scalar multiplication (`IHaveMat.__mul__` with a number): elementwise,
channel kept. -/
def smul {n : ℕ} (s : ℚ) (u : LocalInteraction n) : LocalInteraction n :=
  ⟨fun a b c d => Cx.rsmul s (u.mat a b c d), u.channel⟩

/-- `LocalInteraction.add`: elementwise sum; the result carries
`self.channel` unless it is `NONE`, in which case `other.channel`. -/
def add {n : ℕ} (u v : LocalInteraction n) : LocalInteraction n :=
  ⟨fun a b c d => u.mat a b c d + v.mat a b c d,
   if u.channel ≠ SpinChannel.NONE then u.channel else v.channel⟩

/-- `__neg__ = __mul__(-1.0)`. -/
def neg {n : ℕ} (u : LocalInteraction n) : LocalInteraction n := u.smul (-1)

/-- `sub(other) = add(-other)`. -/
def sub {n : ℕ} (u v : LocalInteraction n) : LocalInteraction n := u.add v.neg

/-- `LocalInteraction.as_channel(channel)`: returns the spin combination for
the requested channel. A deep copy with `_channel` set to the request is
combined with its `abcd->adcb` orbital permutation; re-tagging an
already-tagged object to a different channel raises `ValueError`. -/
def as_channel {n : ℕ} (u : LocalInteraction n) (channel : SpinChannel) :
    Except String (LocalInteraction n) :=
  if u.channel = channel then .ok u
  else if u.channel ≠ SpinChannel.NONE then
    .error "Cannot transform interaction between channels."
  else
    match channel with
    | SpinChannel.DENS =>
        .ok (((⟨u.mat, channel⟩ : LocalInteraction n).smul 2).sub
          (⟨u.mat, channel⟩ : LocalInteraction n).permute_adcb)
    | SpinChannel.MAGN =>
        .ok (⟨u.mat, channel⟩ : LocalInteraction n).permute_adcb.neg
    | SpinChannel.SING =>
        .ok ((⟨u.mat, channel⟩ : LocalInteraction n).add
          (⟨u.mat, channel⟩ : LocalInteraction n).permute_adcb)
    | SpinChannel.TRIP =>
        .ok ((⟨u.mat, channel⟩ : LocalInteraction n).sub
          (⟨u.mat, channel⟩ : LocalInteraction n).permute_adcb)
    | SpinChannel.NONE => .error "Channel not supported."

end LocalInteraction

/-- Non-local interaction `V^q_{abcd}` (`NonLocalInteraction`): one momentum
axis in compressed form in front of the orbital axes. -/
structure NonLocalInteraction (nq n : ℕ) where
  mat : Fin nq → Fin n → Fin n → Fin n → Fin n → Cx
  channel : SpinChannel

namespace NonLocalInteraction

/-- Scalar multiplication: elementwise, channel kept. -/
def smul {nq n : ℕ} (s : ℚ) (v : NonLocalInteraction nq n) : NonLocalInteraction nq n :=
  ⟨fun q a b c d => Cx.rsmul s (v.mat q a b c d), v.channel⟩

/-- `NonLocalInteraction.as_channel(channel)`: only the non-local ph
contribution enters the ladder DGA equations, so the spin combinations are
`2V` (DENS), `0V` (MAGN) and `V` (SING, TRIP), with no orbital permutation
term. Re-tagging an already-tagged object to a different channel raises
`ValueError`. -/
def as_channel {nq n : ℕ} (v : NonLocalInteraction nq n) (channel : SpinChannel) :
    Except String (NonLocalInteraction nq n) :=
  if v.channel = channel then .ok v
  else if v.channel ≠ SpinChannel.NONE then
    .error "Cannot transform interaction between channels."
  else
    match channel with
    | SpinChannel.DENS => .ok ((⟨v.mat, channel⟩ : NonLocalInteraction nq n).smul 2)
    | SpinChannel.MAGN => .ok ((⟨v.mat, channel⟩ : NonLocalInteraction nq n).smul 0)
    | SpinChannel.SING => .ok (⟨v.mat, channel⟩ : NonLocalInteraction nq n)
    | SpinChannel.TRIP => .ok (⟨v.mat, channel⟩ : NonLocalInteraction nq n)
    | SpinChannel.NONE => .error "Channel not supported."

end NonLocalInteraction

/-- C7: `get_frequency_shift` returns `(0, w)` for the PLUS convention,
`(0, -w)` for MINUS, and `(⌊w/2⌋, -(⌊w/2⌋ + w mod 2))` for CENTER, for
negative as well as non-negative bosonic index `w` (Python `//`/`%` are
floor division and the non-negative remainder). -/
theorem claim_C7_frequency_shift (w : ℤ) :
    get_frequency_shift w FrequencyShift.PLUS = .ok (0, w) ∧
    get_frequency_shift w FrequencyShift.MINUS = .ok (0, -w) ∧
    get_frequency_shift w FrequencyShift.CENTER =
      .ok (⌊(w : ℚ) / 2⌋, -(⌊(w : ℚ) / 2⌋ + w % 2)) := by
  refine ⟨rfl, rfl, ?_⟩
  simp only [get_frequency_shift, int_fdiv_two_eq_floor, int_fmod_two_eq_emod]

/-- C10: every many-body tensor object casts its payload to complex64 at
construction (`IHaveMat.__init__` stores `mat.astype(np.complex64)`), so the
stored matrix right after construction has dtype complex64 regardless of the
input dtype; assignments through the `mat` setter afterwards store the value
unchanged with no cast. -/
theorem claim_C10_complex64_cast_on_construction_only :
    (∀ a : NDArray, (IHaveMat.init a)._mat.dtype = DType.complex64) ∧
    (∀ (o : IHaveMat) (v : NDArray), (o.setMat v)._mat = v) :=
  ⟨fun _ => rfl, fun _ _ => rfl⟩

/-- C6: the spin-channel tag is write-once, for local and non-local
interactions alike: `as_channel` on a `NONE`-tagged object returns an object
tagged with the requested channel; `as_channel` with the channel the object
already carries returns it unchanged; `as_channel` with a different channel
on an already-tagged object fails with an error and returns no object. -/
theorem claim_C6_channel_tag_write_once {nq n : ℕ} :
    (∀ (u : LocalInteraction n) (ch : SpinChannel), u.channel = SpinChannel.NONE →
      ch ≠ SpinChannel.NONE → ∃ w, u.as_channel ch = .ok w ∧ w.channel = ch) ∧
    (∀ u : LocalInteraction n, u.as_channel u.channel = .ok u) ∧
    (∀ (u : LocalInteraction n) (ch : SpinChannel), u.channel ≠ SpinChannel.NONE →
      ch ≠ u.channel → ∃ e, u.as_channel ch = .error e) ∧
    (∀ (v : NonLocalInteraction nq n) (ch : SpinChannel), v.channel = SpinChannel.NONE →
      ch ≠ SpinChannel.NONE → ∃ w, v.as_channel ch = .ok w ∧ w.channel = ch) ∧
    (∀ v : NonLocalInteraction nq n, v.as_channel v.channel = .ok v) ∧
    (∀ (v : NonLocalInteraction nq n) (ch : SpinChannel), v.channel ≠ SpinChannel.NONE →
      ch ≠ v.channel → ∃ e, v.as_channel ch = .error e) := by
  refine ⟨?_, ?_, ?_, ?_, ?_, ?_⟩
  · intro u ch hu hch
    cases ch with
    | NONE => exact absurd rfl hch
    | DENS =>
      refine ⟨((⟨u.mat, SpinChannel.DENS⟩ : LocalInteraction n).smul 2).sub
        (⟨u.mat, SpinChannel.DENS⟩ : LocalInteraction n).permute_adcb, ?_, rfl⟩
      simp [LocalInteraction.as_channel, hu]
    | MAGN =>
      refine ⟨(⟨u.mat, SpinChannel.MAGN⟩ : LocalInteraction n).permute_adcb.neg, ?_, rfl⟩
      simp [LocalInteraction.as_channel, hu]
    | SING =>
      refine ⟨(⟨u.mat, SpinChannel.SING⟩ : LocalInteraction n).add
        (⟨u.mat, SpinChannel.SING⟩ : LocalInteraction n).permute_adcb, ?_, rfl⟩
      simp [LocalInteraction.as_channel, hu]
    | TRIP =>
      refine ⟨(⟨u.mat, SpinChannel.TRIP⟩ : LocalInteraction n).sub
        (⟨u.mat, SpinChannel.TRIP⟩ : LocalInteraction n).permute_adcb, ?_, rfl⟩
      simp [LocalInteraction.as_channel, hu]
  · intro u
    simp [LocalInteraction.as_channel]
  · intro u ch hu hch
    refine ⟨"Cannot transform interaction between channels.", ?_⟩
    rw [LocalInteraction.as_channel.eq_def, if_neg (fun h => hch h.symm), if_pos hu]
  · intro v ch hv hch
    cases ch with
    | NONE => exact absurd rfl hch
    | DENS =>
      refine ⟨NonLocalInteraction.smul 2
        (⟨v.mat, SpinChannel.DENS⟩ : NonLocalInteraction nq n), ?_, rfl⟩
      simp [NonLocalInteraction.as_channel, hv]
    | MAGN =>
      refine ⟨NonLocalInteraction.smul 0
        (⟨v.mat, SpinChannel.MAGN⟩ : NonLocalInteraction nq n), ?_, rfl⟩
      simp [NonLocalInteraction.as_channel, hv]
    | SING =>
      refine ⟨(⟨v.mat, SpinChannel.SING⟩ : NonLocalInteraction nq n), ?_, rfl⟩
      simp [NonLocalInteraction.as_channel, hv]
    | TRIP =>
      refine ⟨(⟨v.mat, SpinChannel.TRIP⟩ : NonLocalInteraction nq n), ?_, rfl⟩
      simp [NonLocalInteraction.as_channel, hv]
  · intro v
    simp [NonLocalInteraction.as_channel]
  · intro v ch hv hch
    refine ⟨"Cannot transform interaction between channels.", ?_⟩
    rw [NonLocalInteraction.as_channel.eq_def, if_neg (fun h => hch h.symm), if_pos hv]

/-- Witness for C6: a `DENS`-tagged one-band local interaction cannot be
re-tagged to `MAGN` — `as_channel` returns an error. -/
theorem claim_C6_witness :
    ∃ e, (LocalInteraction.mk (fun _ _ _ _ => ⟨1, 0⟩) SpinChannel.DENS :
      LocalInteraction 1).as_channel SpinChannel.MAGN = .error e :=
  (@claim_C6_channel_tag_write_once 1 1).2.2.1
    (LocalInteraction.mk (fun _ _ _ _ => ⟨1, 0⟩) SpinChannel.DENS)
    SpinChannel.MAGN (by simp) (by simp)

/-- C9: for a nonlocal interaction tagged `NONE`, `as_channel(MAGN)` is the
identically zero tensor (the momentum-dependent interaction never feeds the
magnetic channel) and `as_channel(DENS)` is twice the original with no
orbital permutation term — unlike the local interaction, whose density
combination is `2U_abcd - U_adcb` and whose magnetic combination is
`-U_adcb`. -/
theorem claim_C9_nonlocal_channel_combinations {nq n : ℕ} :
    (∀ v : NonLocalInteraction nq n, v.channel = SpinChannel.NONE →
      ∃ w, v.as_channel SpinChannel.MAGN = .ok w ∧ w.channel = SpinChannel.MAGN ∧
        ∀ q a b c d, w.mat q a b c d = 0) ∧
    (∀ v : NonLocalInteraction nq n, v.channel = SpinChannel.NONE →
      ∃ w, v.as_channel SpinChannel.DENS = .ok w ∧ w.channel = SpinChannel.DENS ∧
        ∀ q a b c d, w.mat q a b c d = Cx.rsmul 2 (v.mat q a b c d)) ∧
    (∀ u : LocalInteraction n, u.channel = SpinChannel.NONE →
      ∃ w, u.as_channel SpinChannel.DENS = .ok w ∧
        ∀ a b c d, w.mat a b c d = Cx.rsmul 2 (u.mat a b c d) - u.mat a d c b) ∧
    (∀ u : LocalInteraction n, u.channel = SpinChannel.NONE →
      ∃ w, u.as_channel SpinChannel.MAGN = .ok w ∧
        ∀ a b c d, w.mat a b c d = -(u.mat a d c b)) := by
  refine ⟨?_, ?_, ?_, ?_⟩
  · intro v hv
    refine ⟨NonLocalInteraction.smul 0
      (⟨v.mat, SpinChannel.MAGN⟩ : NonLocalInteraction nq n),
      by simp [NonLocalInteraction.as_channel, hv], rfl, ?_⟩
    intro q a b c d
    show Cx.rsmul 0 (v.mat q a b c d) = 0
    cases v.mat q a b c d
    simp [Cx.rsmul, Cx.zero_def]
  · intro v hv
    exact ⟨NonLocalInteraction.smul 2
      (⟨v.mat, SpinChannel.DENS⟩ : NonLocalInteraction nq n),
      by simp [NonLocalInteraction.as_channel, hv], rfl, fun q a b c d => rfl⟩
  · intro u hu
    refine ⟨((⟨u.mat, SpinChannel.DENS⟩ : LocalInteraction n).smul 2).sub
      (⟨u.mat, SpinChannel.DENS⟩ : LocalInteraction n).permute_adcb,
      by simp [LocalInteraction.as_channel, hu], ?_⟩
    intro a b c d
    show Cx.rsmul 2 (u.mat a b c d) + Cx.rsmul (-1) (u.mat a d c b) =
      Cx.rsmul 2 (u.mat a b c d) - u.mat a d c b
    cases u.mat a b c d
    cases u.mat a d c b
    simp only [Cx.rsmul, Cx.add_def, Cx.sub_def, Cx.re_mk, Cx.im_mk, Cx.mk.injEq]
    constructor <;> ring
  · intro u hu
    refine ⟨(⟨u.mat, SpinChannel.MAGN⟩ : LocalInteraction n).permute_adcb.neg,
      by simp [LocalInteraction.as_channel, hu], ?_⟩
    intro a b c d
    show Cx.rsmul (-1) (u.mat a d c b) = -(u.mat a d c b)
    cases u.mat a d c b
    simp only [Cx.rsmul, Cx.neg_def, Cx.re_mk, Cx.im_mk, Cx.mk.injEq]
    constructor <;> ring

/-- Witness for C9: the `NONE`-tagged constant nonlocal interaction with
value `3 + 4i` on a one-point momentum grid maps to the zero tensor in the
magnetic channel. -/
theorem claim_C9_witness :
    ∃ w, (NonLocalInteraction.mk (fun _ _ _ _ _ => ⟨3, 4⟩) SpinChannel.NONE :
      NonLocalInteraction 1 1).as_channel SpinChannel.MAGN = .ok w ∧
      w.channel = SpinChannel.MAGN ∧ ∀ q a b c d, w.mat q a b c d = 0 :=
  (@claim_C9_nonlocal_channel_combinations 1 1).1
    (NonLocalInteraction.mk (fun _ _ _ _ _ => ⟨3, 4⟩) SpinChannel.NONE) rfl

/-! ## Bosonic frequency-range folding and fermionic diagonal extension

The class implementing these operations, `LocalNPoint`
(src/scdga/local_n_point.py), is not among the provided sources — only its
test suite (src/tests/test_local_n_point.py) is.  The definitions below are
therefore modelled from the spec (sections 3 and 8), with the exact index
arithmetic pinned down by the tests. -/

/-- Modelled from the spec: `LocalNPoint.to_full_niw_range` of the missing
src/scdga/local_n_point.py. Half-range tensors store bosonic indices
`w ∈ [0, niw]`; the full-range tensor has `2*niw+1` bosonic entries, its
upper half `[niw, 2*niw]` carrying the stored data and its lower half
reconstructed as the complex conjugate of the strictly-positive-index data
flipped across the bosonic and both fermionic frequency axes
(`np.conj(np.flip(mat[..., 1:, :, :], axis=(-3, -2, -1)))` per the tests).
`ι` stands for the orbital axes, through which the operation acts
elementwise; the two fermionic axes have length `nv`. -/
def to_full_niw_range {ι : Type} (niw nv : ℕ)
    (m : ι → Fin (niw + 1) → Fin nv → Fin nv → Cx) :
    ι → Fin (2 * niw + 1) → Fin nv → Fin nv → Cx :=
  fun o w v1 v2 =>
    if h : (w : ℕ) < niw then
      Cx.conj (m o ⟨niw - w, by omega⟩
        ⟨nv - 1 - v1, by have := v1.isLt; omega⟩
        ⟨nv - 1 - v2, by have := v2.isLt; omega⟩)
    else m o ⟨(w : ℕ) - niw, by have := w.isLt; omega⟩ v1 v2

/-- Modelled from the spec: `LocalNPoint.to_half_niw_range` of the missing
src/scdga/local_n_point.py keeps only the non-negative bosonic indices,
positions `niw, ..., 2*niw` of the full range. -/
def to_half_niw_range {ι : Type} (niw nv : ℕ)
    (m : ι → Fin (2 * niw + 1) → Fin nv → Fin nv → Cx) :
    ι → Fin (niw + 1) → Fin nv → Fin nv → Cx :=
  fun o w v1 v2 => m o ⟨niw + w, by have := w.isLt; omega⟩ v1 v2

/-- C4 (spec-modelled): converting a half-range tensor to the full bosonic
range and back to the half range is the identity on the original data; and
the full-range conversion reconstructs each negative-bosonic-index entry
`X(-k)` (position `niw - k`, `0 < k ≤ niw`) exactly as the complex conjugate
of the positive-index entry `X(k)` (position `niw + k`) with both fermionic
frequency axes reversed. -/
theorem claim_C4_bosonic_range_roundtrip {ι : Type} (niw nv : ℕ)
    (m : ι → Fin (niw + 1) → Fin nv → Fin nv → Cx) :
    to_half_niw_range niw nv (to_full_niw_range niw nv m) = m ∧
    (∀ (o : ι) (k : ℕ) (hk1 : 0 < k) (hk2 : k ≤ niw) (v1 v2 : Fin nv),
      to_full_niw_range niw nv m o ⟨niw - k, by omega⟩ v1 v2 =
        Cx.conj (to_full_niw_range niw nv m o ⟨niw + k, by omega⟩
          ⟨nv - 1 - v1, by have := v1.isLt; omega⟩
          ⟨nv - 1 - v2, by have := v2.isLt; omega⟩)) := by
  constructor
  · funext o w v1 v2
    simp only [to_half_niw_range, to_full_niw_range]
    rw [dif_neg (by omega)]
    have e1 : (⟨niw + (w : ℕ) - niw, by have := w.isLt; omega⟩ : Fin (niw + 1)) = w :=
      Fin.ext (by show niw + (w : ℕ) - niw = (w : ℕ); omega)
    rw [e1]
  · intro o k hk hk2 v1 v2
    simp only [to_full_niw_range]
    rw [dif_pos (by omega), dif_neg (by omega)]
    have e1 : (⟨niw - (niw - k), by omega⟩ : Fin (niw + 1)) =
        (⟨niw + k - niw, by omega⟩ : Fin (niw + 1)) :=
      Fin.ext (by show niw - (niw - k) = niw + k - niw; omega)
    rw [e1]

/-- The concrete half-range tensor used by the C4 witness: one orbital
entry (`Unit`), `niw = 1`, two fermionic indices of extent `nv = 2`,
entry value `w + 1 + (v1 - v2)·i`. -/
def c4_witness_tensor : Unit → Fin 2 → Fin 2 → Fin 2 → Cx :=
  fun _ w v1 v2 => ⟨(w : ℚ) + 1, (v1 : ℚ) - (v2 : ℚ)⟩

/-- Witness for C4: at `niw = 1`, `nv = 2`, the reconstructed entry at
bosonic position `0` (i.e. `w = -1`) equals the conjugate of the entry at
position `2` (i.e. `w = +1`) with both fermionic axes reversed. -/
theorem claim_C4_witness :
    to_full_niw_range 1 2 c4_witness_tensor () ⟨1 - 1, by omega⟩ 0 1 =
      Cx.conj (to_full_niw_range 1 2 c4_witness_tensor () ⟨1 + 1, by omega⟩
        ⟨2 - 1 - ((0 : Fin 2) : ℕ), by omega⟩ ⟨2 - 1 - ((1 : Fin 2) : ℕ), by omega⟩) :=
  (claim_C4_bosonic_range_roundtrip 1 2 c4_witness_tensor).2
    () 1 (by omega) (by omega) 0 1

/-- Modelled from the spec: `LocalNPoint.extend_vn_to_diagonal` of the
missing src/scdga/local_n_point.py maps a one-fermionic-axis tensor to the
two-axis tensor that carries the original values on the fermionic diagonal
and exact zeros off it. `ι` stands for the remaining (orbital and bosonic)
axes. -/
def extend_vn_to_diagonal {ι : Type} (nv : ℕ) (m : ι → Fin nv → Cx) :
    ι → Fin nv → Fin nv → Cx :=
  fun o i j => if i = j then m o i else 0

/-- Modelled from the spec: `LocalNPoint.take_vn_diagonal` of the missing
src/scdga/local_n_point.py restricts a two-fermionic-axis tensor to equal
fermionic indices. -/
def take_vn_diagonal {ι : Type} (nv : ℕ) (M : ι → Fin nv → Fin nv → Cx) :
    ι → Fin nv → Cx :=
  fun o i => M o i i

/-- C5 (spec-modelled): extending a one-fermionic-axis tensor to the
two-axis diagonal form and then taking the diagonal is the identity; the
extended tensor is exactly zero at every off-diagonal pair of fermionic
indices and carries the original values on the diagonal. -/
theorem claim_C5_diagonal_roundtrip {ι : Type} (nv : ℕ) (m : ι → Fin nv → Cx) :
    take_vn_diagonal nv (extend_vn_to_diagonal nv m) = m ∧
    (∀ (o : ι) (i j : Fin nv), i ≠ j → extend_vn_to_diagonal nv m o i j = 0) ∧
    (∀ (o : ι) (i : Fin nv), extend_vn_to_diagonal nv m o i i = m o i) := by
  refine ⟨?_, ?_, ?_⟩
  · funext o i
    simp [take_vn_diagonal, extend_vn_to_diagonal]
  · intro o i j hij
    simp [extend_vn_to_diagonal, hij]
  · intro o i
    simp [extend_vn_to_diagonal]

/-- Witness for C5: the off-diagonal entry `(0, 1)` of the diagonal
extension of a concrete two-entry tensor is exactly zero. -/
theorem claim_C5_witness :
    extend_vn_to_diagonal 2 (fun (_ : Unit) i => ⟨(i : ℚ) + 5, 1⟩) () 0 1 = 0 :=
  (claim_C5_diagonal_roundtrip 2 (fun (_ : Unit) i => ⟨(i : ℚ) + 5, 1⟩)).2.1
    () 0 1 (by decide)

/-! ## Self-consistency loop convergence (src/scdga/nonlocal_sde.py,
`calculate_self_energy_q`)

The loop body — lattice Green's function, bubble, kernels, Hartree-Fock,
chemical-potential update and mixing — involves file I/O and MPI collectives
and is abstracted as a function `step` from the iteration number and the
previous self-energy to the mixed new self-energy; the claim is about the
loop control around it. Self-energies are flat complex lists. -/

/-- numpy's default relative tolerance in `np.allclose` / `np.isclose`. -/
def np_rtol_default : ℚ := 1 / 100000

theorem normSq_nonneg (z : Cx) : 0 ≤ z.normSq := by
  have h1 := mul_self_nonneg z.re
  have h2 := mul_self_nonneg z.im
  simp only [Cx.normSq]
  linarith

/-- The elementwise `np.isclose` test `|a - b| <= atol + rtol * |b|` on
complex entries, phrased in rational arithmetic by squaring: with
`L = |a-b|² - atol² - rtol²·|b|²` the test holds iff `L ≤ 0` or
`L² ≤ 4·atol²·rtol²·|b|²` (for `atol, rtol ≥ 0`); the equivalence with the
real modulus inequality is proved in `claim_C3_convergence_criterion`. -/
def cx_isclose (a b : Cx) (atol rtol : ℚ) : Bool :=
  decide ((a - b).normSq - atol ^ 2 - rtol ^ 2 * b.normSq ≤ 0) ||
  decide (((a - b).normSq - atol ^ 2 - rtol ^ 2 * b.normSq) ^ 2 ≤
    4 * atol ^ 2 * rtol ^ 2 * b.normSq)

/-- `np.allclose(a, b, atol, rtol)` on equal-shape 1-d complex arrays. -/
def np_allclose (a b : List Cx) (atol rtol : ℚ) : Bool :=
  decide (a.length = b.length) &&
  (List.zip a b).all fun p => cx_isclose p.1 p.2 atol rtol

/-- The `for current_iter in range(...)` loop of `calculate_self_energy_q`,
fuelled by the remaining iteration count: each iteration computes
`sigma_new = step current_iter sigma_old`; convergence is
`np.allclose(sigma_old, sigma_new, atol=epsilon)` (with numpy's default
rtol), tested only when `current_iter > starting_iter + 1`; then
`sigma_old = sigma_new` and the loop breaks if converged. Returns the final
`sigma_old` and whether convergence was declared. -/
def sc_loop (step : ℕ → List Cx → List Cx) (starting_iter : ℕ) (epsilon : ℚ) :
    ℕ → ℕ → List Cx → List Cx × Bool
  | 0, _, sigma_old => (sigma_old, false)
  | n + 1, current_iter, sigma_old =>
    if decide (starting_iter + 1 < current_iter) &&
        np_allclose sigma_old (step current_iter sigma_old) epsilon np_rtol_default then
      (step current_iter sigma_old, true)
    else
      sc_loop step starting_iter epsilon n (current_iter + 1) (step current_iter sigma_old)

/-- The self-consistency loop of `calculate_self_energy_q`:
`for current_iter in range(starting_iter + 1, starting_iter + max_iter + 1)`. -/
def calculate_self_energy_q_loop (step : ℕ → List Cx → List Cx)
    (starting_iter max_iter : ℕ) (epsilon : ℚ) (sigma_start : List Cx) :
    List Cx × Bool :=
  sc_loop step starting_iter epsilon max_iter (starting_iter + 1) sigma_start

/-- The self-energy after `n` loop bodies starting at iteration number
`it`. -/
def sc_iterates (step : ℕ → List Cx → List Cx) : ℕ → ℕ → List Cx → List Cx
  | 0, _, sigma => sigma
  | n + 1, it, sigma => sc_iterates step n (it + 1) (step it sigma)

/-- The convergence check the loop evaluates at its `j`-th body when started
at iteration number `it` from self-energy `sigma`. -/
def sc_check_from (step : ℕ → List Cx → List Cx) (starting_iter : ℕ)
    (epsilon : ℚ) (it : ℕ) (sigma : List Cx) (j : ℕ) : Bool :=
  decide (starting_iter + 1 < it + j) &&
    np_allclose (sc_iterates step j it sigma)
      (step (it + j) (sc_iterates step j it sigma)) epsilon np_rtol_default

lemma sc_loop_no_trigger (step : ℕ → List Cx → List Cx) (st : ℕ) (eps : ℚ) :
    ∀ (n it : ℕ) (sigma : List Cx),
    (∀ j, j < n → sc_check_from step st eps it sigma j = false) →
    sc_loop step st eps n it sigma = (sc_iterates step n it sigma, false) := by
  intro n
  induction n with
  | zero => intro it sigma _; rfl
  | succ n ih =>
    intro it sigma h
    have h0 : sc_check_from step st eps it sigma 0 = false := h 0 (by omega)
    have h0e : (decide (st + 1 < it) &&
        np_allclose sigma (step it sigma) eps np_rtol_default) = false := h0
    simp only [sc_loop, h0e, Bool.false_eq_true, if_false]
    show sc_loop step st eps n (it + 1) (step it sigma) =
      (sc_iterates step n (it + 1) (step it sigma), false)
    apply ih
    intro j hj
    have hh := h (j + 1) (by omega)
    show sc_check_from step st eps (it + 1) (step it sigma) j = false
    simp only [sc_check_from] at hh ⊢
    rw [show it + 1 + j = it + (j + 1) by omega]
    exact hh

lemma sc_loop_first_trigger (step : ℕ → List Cx → List Cx) (st : ℕ) (eps : ℚ) :
    ∀ (n k it : ℕ) (sigma : List Cx), k < n →
    (∀ j, j < k → sc_check_from step st eps it sigma j = false) →
    sc_check_from step st eps it sigma k = true →
    sc_loop step st eps n it sigma = (sc_iterates step (k + 1) it sigma, true) := by
  intro n
  induction n with
  | zero => intro k it sigma hk; omega
  | succ n ih =>
    intro k it sigma hk hprev htrig
    match k with
    | 0 =>
      have h0e : (decide (st + 1 < it) &&
          np_allclose sigma (step it sigma) eps np_rtol_default) = true := htrig
      simp only [sc_loop, h0e, if_true]
      rfl
    | k + 1 =>
      have h0 : sc_check_from step st eps it sigma 0 = false := hprev 0 (by omega)
      have h0e : (decide (st + 1 < it) &&
          np_allclose sigma (step it sigma) eps np_rtol_default) = false := h0
      simp only [sc_loop, h0e, Bool.false_eq_true, if_false]
      show sc_loop step st eps n (it + 1) (step it sigma) =
        (sc_iterates step (k + 1 + 1) it sigma, true)
      have hres := ih k (it + 1) (step it sigma) (by omega)
        (fun j hj => by
          have hh := hprev (j + 1) (by omega)
          show sc_check_from step st eps (it + 1) (step it sigma) j = false
          simp only [sc_check_from] at hh ⊢
          rw [show it + 1 + j = it + (j + 1) by omega]
          exact hh)
        (by
          show sc_check_from step st eps (it + 1) (step it sigma) k = true
          simp only [sc_check_from] at htrig ⊢
          rw [show it + 1 + k = it + (k + 1) by omega]
          exact htrig)
      exact hres

lemma sqrt_le_add_mul_sqrt_iff (x y A R : ℝ) (hx : 0 ≤ x) (hy : 0 ≤ y)
    (hA : 0 ≤ A) (hR : 0 ≤ R) :
    Real.sqrt x ≤ A + R * Real.sqrt y ↔
      (x - A ^ 2 - R ^ 2 * y ≤ 0 ∨
        (x - A ^ 2 - R ^ 2 * y) ^ 2 ≤ 4 * A ^ 2 * R ^ 2 * y) := by
  have hs := Real.sqrt_nonneg x
  have ht := Real.sqrt_nonneg y
  have hs2 : Real.sqrt x ^ 2 = x := Real.sq_sqrt hx
  have ht2 : Real.sqrt y ^ 2 = y := Real.sq_sqrt hy
  have ht4 : (2 * (A * R * Real.sqrt y)) * (2 * (A * R * Real.sqrt y)) =
      4 * A ^ 2 * R ^ 2 * y := by
    linear_combination (4 * A ^ 2 * R ^ 2) * ht2
  constructor
  · intro h
    have hx2 : x ≤ (A + R * Real.sqrt y) ^ 2 := by
      have := pow_le_pow_left₀ hs h 2
      rwa [hs2] at this
    by_cases hL : x - A ^ 2 - R ^ 2 * y ≤ 0
    · exact Or.inl hL
    · right
      push_neg at hL
      have h1 : x - A ^ 2 - R ^ 2 * y ≤ 2 * (A * R * Real.sqrt y) := by nlinarith [ht2]
      have hsq : (x - A ^ 2 - R ^ 2 * y) * (x - A ^ 2 - R ^ 2 * y) ≤
          (2 * (A * R * Real.sqrt y)) * (2 * (A * R * Real.sqrt y)) :=
        mul_self_le_mul_self hL.le h1
      rw [pow_two]
      exact le_trans hsq (le_of_eq ht4)
  · intro h
    have key : x ≤ (A + R * Real.sqrt y) ^ 2 := by
      rcases h with hL | hL
      · nlinarith [ht2, mul_nonneg (mul_nonneg hA hR) ht]
      · have h2 : 0 ≤ 2 * (A * R * Real.sqrt y) := by positivity
        have h3 : x - A ^ 2 - R ^ 2 * y ≤ 2 * (A * R * Real.sqrt y) := by
          by_contra hgt
          push_neg at hgt
          have hM : (2 * (A * R * Real.sqrt y)) * (2 * (A * R * Real.sqrt y)) <
              (x - A ^ 2 - R ^ 2 * y) * (x - A ^ 2 - R ^ 2 * y) :=
            mul_self_lt_mul_self h2 hgt
          rw [pow_two] at hL
          linarith [hM, hL, ht4]
        nlinarith [h3, ht2, mul_nonneg (mul_nonneg hA hR) ht]
    have hAR : 0 ≤ A + R * Real.sqrt y := by positivity
    have hfin := Real.sqrt_le_sqrt key
    rwa [Real.sqrt_sq hAR] at hfin

lemma cx_isclose_iff_modulus (u v : Cx) (atol rtol : ℚ) (hA : 0 ≤ atol) (hR : 0 ≤ rtol) :
    cx_isclose u v atol rtol = true ↔
      Real.sqrt (((u - v).normSq : ℚ) : ℝ) ≤
        (atol : ℝ) + (rtol : ℝ) * Real.sqrt ((v.normSq : ℚ) : ℝ) := by
  have hx : (0 : ℝ) ≤ (((u - v).normSq : ℚ) : ℝ) := by exact_mod_cast normSq_nonneg _
  have hy : (0 : ℝ) ≤ ((v.normSq : ℚ) : ℝ) := by exact_mod_cast normSq_nonneg _
  have hA2 : (0 : ℝ) ≤ (atol : ℝ) := by exact_mod_cast hA
  have hR2 : (0 : ℝ) ≤ (rtol : ℝ) := by exact_mod_cast hR
  rw [sqrt_le_add_mul_sqrt_iff _ _ _ _ hx hy hA2 hR2]
  simp only [cx_isclose, Bool.or_eq_true, decide_eq_true_eq]
  constructor
  · rintro (h | h)
    · left; exact_mod_cast h
    · right; exact_mod_cast h
  · rintro (h | h)
    · left; exact_mod_cast h
    · right; exact_mod_cast h

lemma sc_loop_flag_false (step : ℕ → List Cx → List Cx) (st : ℕ) (eps : ℚ) :
    ∀ (n it : ℕ) (sigma : List Cx), (sc_loop step st eps n it sigma).2 = false →
    (sc_loop step st eps n it sigma).1 = sc_iterates step n it sigma := by
  intro n
  induction n with
  | zero => intro it sigma _; rfl
  | succ n ih =>
    intro it sigma h
    by_cases hc : (decide (st + 1 < it) &&
        np_allclose sigma (step it sigma) eps np_rtol_default) = true
    · exfalso
      simp only [sc_loop, hc, if_true] at h
      simp at h
    · have hc2 : (decide (st + 1 < it) &&
          np_allclose sigma (step it sigma) eps np_rtol_default) = false :=
        Bool.eq_false_iff.mpr hc
      simp only [sc_loop, hc2, Bool.false_eq_true, if_false] at h ⊢
      exact ih (it + 1) (step it sigma) h

/-- C3 (amended): in the self-consistency loop, convergence is declared
exactly when the iteration is NOT the first one performed in this run
(`current_iter > starting_iter + 1`) and `np.allclose(sigma_old, sigma_new,
atol=epsilon)` holds, i.e. every element satisfies the non-strict bound
`|sigma_old_i - sigma_new_i| ≤ epsilon + 1e-5 * |sigma_new_i|`, which
includes numpy's default RELATIVE tolerance on top of the configured
absolute one; upon convergence the loop stops and returns that iterate with
the flag true; if the check never succeeds the loop exits after `max_iter`
iterations and returns the last computed iterate with the flag false,
raising no error. -/
theorem claim_C3_convergence_criterion (step : ℕ → List Cx → List Cx)
    (starting_iter max_iter : ℕ) (epsilon : ℚ) (sigma_start : List Cx) :
    ((calculate_self_energy_q_loop step starting_iter max_iter epsilon sigma_start).2 =
        false →
      (calculate_self_energy_q_loop step starting_iter max_iter epsilon sigma_start).1 =
        sc_iterates step max_iter (starting_iter + 1) sigma_start) ∧
    (∀ k, k < max_iter →
      (∀ j, j < k → sc_check_from step starting_iter epsilon (starting_iter + 1)
        sigma_start j = false) →
      sc_check_from step starting_iter epsilon (starting_iter + 1) sigma_start k = true →
      calculate_self_energy_q_loop step starting_iter max_iter epsilon sigma_start =
        (sc_iterates step (k + 1) (starting_iter + 1) sigma_start, true)) ∧
    ((∀ j, j < max_iter → sc_check_from step starting_iter epsilon (starting_iter + 1)
        sigma_start j = false) →
      calculate_self_energy_q_loop step starting_iter max_iter epsilon sigma_start =
        (sc_iterates step max_iter (starting_iter + 1) sigma_start, false)) ∧
    (∀ (a b : List Cx) (atol rtol : ℚ), 0 ≤ atol → 0 ≤ rtol →
      (np_allclose a b atol rtol = true ↔ a.length = b.length ∧
        ∀ p ∈ List.zip a b, Real.sqrt (((p.1 - p.2).normSq : ℚ) : ℝ) ≤
          (atol : ℝ) + (rtol : ℝ) * Real.sqrt ((p.2.normSq : ℚ) : ℝ))) := by
  refine ⟨?_, ?_, ?_, ?_⟩
  · exact sc_loop_flag_false step starting_iter epsilon max_iter (starting_iter + 1)
      sigma_start
  · intro k hk hprev htrig
    exact sc_loop_first_trigger step starting_iter epsilon max_iter k (starting_iter + 1)
      sigma_start hk hprev htrig
  · intro h
    exact sc_loop_no_trigger step starting_iter epsilon max_iter (starting_iter + 1)
      sigma_start h
  · intro a b atol rtol hA hR
    simp only [np_allclose, Bool.and_eq_true, decide_eq_true_eq, List.all_eq_true]
    constructor
    · rintro ⟨hlen, hall⟩
      exact ⟨hlen, fun p hp => (cx_isclose_iff_modulus p.1 p.2 atol rtol hA hR).mp
        (hall p hp)⟩
    · rintro ⟨hlen, hall⟩
      exact ⟨hlen, fun p hp => (cx_isclose_iff_modulus p.1 p.2 atol rtol hA hR).mpr
        (hall p hp)⟩

/-- Witness for C3: a stationary loop body (`step` is the identity) from a
one-entry self-energy converges at the second iteration — the first check
that is actually performed — and the loop returns that iterate with the
converged flag set. -/
theorem claim_C3_witness :
    calculate_self_energy_q_loop (fun _ sigma => sigma) 0 2 (1/10000000)
      [(⟨1, 0⟩ : Cx)] = ([(⟨1, 0⟩ : Cx)], true) := by
  have h := (claim_C3_convergence_criterion (fun _ sigma => sigma) 0 2 (1/10000000)
    [(⟨1, 0⟩ : Cx)]).2.1 1 (by omega)
    (fun j hj => by
      have hj0 : j = 0 := by omega
      subst hj0
      rfl)
    (by
      show (decide (0 + 1 < 1 + 1) &&
        np_allclose [(⟨1, 0⟩ : Cx)] [(⟨1, 0⟩ : Cx)] (1/10000000) np_rtol_default) = true
      norm_num [np_allclose, cx_isclose, np_rtol_default, Cx.sub_def, Cx.normSq,
        Cx.re_mk, Cx.im_mk])
  exact h

/-- C3 counterexample: with a stationary loop body (`sigma_new = sigma_old`,
so the elementwise difference is identically zero, hence
`max|sigma_new - sigma_old| = 0 < epsilon`) and an iteration budget of one,
the loop does NOT declare convergence — the check is skipped on the first
iteration of a run (`current_iter > starting_iter + 1` fails) — refuting
"convergence is declared exactly when max|sigma_new - sigma_old| <
epsilon". -/
theorem claim_C3_counterexample :
    (calculate_self_energy_q_loop (fun _ sigma => sigma) 0 1 (1/10000000)
      [(⟨1, 0⟩ : Cx)]).2 = false ∧
    (fun _ (sigma : List Cx) => sigma) 1 [(⟨1, 0⟩ : Cx)] = [(⟨1, 0⟩ : Cx)] ∧
    ((0 : ℚ) < 1/10000000) := by
  refine ⟨rfl, rfl, by norm_num⟩

/-! ## Mixing strategies (src/scdga/nonlocal_sde.py, `apply_mixing_strategy`)

The Pulay branch reads the last `n_hist` self-energies back from checkpoint
files (`read_last_n_sigmas_from_files`) and solves a least-squares normal
equation for the extrapolated correction before writing it onto the core
frequency window; the file contents, and hence the correction vector, are
outside a pure model and enter as the parameter `pulay_update`. Self-energies
are lists over the last (fermionic-frequency) axis of length `2*niv_dmft`;
the leading momentum/orbital axes are elementwise spectators. -/

/-- Embedding of `apply_mixing_strategy(sigma_new, sigma_old, sigma_dmft,
current_iter)`. The config fields `mixing_strategy`, `mixing`,
`mixing_history_length`, `save_iter`, `save_quantities` and `box.niv_core`
are passed explicitly; `niv_dmft = sigma_new.current_shape[-1] // 2` is
computed from the input as in the source. The Pulay branch assigns
`sigma_old[window] + update` on the window
`[niv_dmft - niv_core, niv_dmft + niv_core)` of `sigma_new` and leaves the
rest of `sigma_new` untouched; the fallback is linear mixing
`mixing * sigma_new + (1 - mixing) * sigma_old`. -/
def apply_mixing_strategy (strategy : String) (mixing : ℚ)
    (mixing_history_length current_iter : ℕ) (save_iter save_quantities : Bool)
    (niv_core : ℕ) (pulay_update sigma_new sigma_old : List Cx) : List Cx :=
  if strategy == "pulay" && decide (mixing_history_length < current_iter) &&
      save_iter && save_quantities then
    sigma_new.mapIdx fun i x =>
      if sigma_new.length / 2 - niv_core ≤ i ∧ i < sigma_new.length / 2 + niv_core then
        sigma_old.getD i 0 + pulay_update.getD (i - (sigma_new.length / 2 - niv_core)) 0
      else x
  else
    List.zipWith (fun snew sold => Cx.rsmul mixing snew + Cx.rsmul (1 - mixing) sold)
      sigma_new sigma_old

lemma getD_mapIdx {α β : Type} (f : ℕ → α → β) (l : List α) (i : ℕ)
    (hi : i < l.length) (d : β) :
    (l.mapIdx f).getD i d = f i (l.get ⟨i, hi⟩) := by
  rw [List.getD_eq_getElem _ _ (by simpa [List.length_mapIdx] using hi)]
  exact List.get_mapIdx l f i hi _

/-- C8 (amended): with mixing strategy "pulay", the Pulay (DIIS)
extrapolated update is applied exactly when the current iteration number
exceeds `N = history_length` AND iteration snapshots are being written
(`self_consistency.save_iter` and `output.save_quantities` both enabled —
the branch reads its history back from those snapshot files); the update is
written only on the core frequency window
`[niv_dmft - niv_core, niv_dmft + niv_core)`, entries outside it passing
through from `sigma_new` unchanged; in every other case — different
strategy, not enough history, or snapshots not saved — the step is linear
mixing `alpha*sigma_new + (1-alpha)*sigma_old`. -/
theorem claim_C8_pulay_activation (strategy : String) (mixing : ℚ)
    (n_hist current_iter : ℕ) (save_iter save_quantities : Bool) (niv_core : ℕ)
    (pulay_update sigma_new sigma_old : List Cx) :
    (strategy = "pulay" → n_hist < current_iter → save_iter = true →
      save_quantities = true →
      apply_mixing_strategy strategy mixing n_hist current_iter save_iter
          save_quantities niv_core pulay_update sigma_new sigma_old =
        sigma_new.mapIdx (fun i x =>
          if sigma_new.length / 2 - niv_core ≤ i ∧
              i < sigma_new.length / 2 + niv_core then
            sigma_old.getD i 0 +
              pulay_update.getD (i - (sigma_new.length / 2 - niv_core)) 0
          else x)) ∧
    (strategy ≠ "pulay" ∨ ¬ n_hist < current_iter ∨ save_iter = false ∨
        save_quantities = false →
      apply_mixing_strategy strategy mixing n_hist current_iter save_iter
          save_quantities niv_core pulay_update sigma_new sigma_old =
        List.zipWith (fun snew sold => Cx.rsmul mixing snew + Cx.rsmul (1 - mixing) sold)
          sigma_new sigma_old) ∧
    (strategy = "pulay" → n_hist < current_iter → save_iter = true →
      save_quantities = true →
      ∀ i, ∀ hi : i < sigma_new.length,
        (i < sigma_new.length / 2 - niv_core ∨ sigma_new.length / 2 + niv_core ≤ i) →
        (apply_mixing_strategy strategy mixing n_hist current_iter save_iter
            save_quantities niv_core pulay_update sigma_new sigma_old).getD i 0 =
          sigma_new.get ⟨i, hi⟩) := by
  refine ⟨?_, ?_, ?_⟩
  · intro h1 h2 h3 h4
    subst h1 h3 h4
    simp [apply_mixing_strategy, decide_eq_true h2]
  · intro hdisj
    have hcond : (strategy == "pulay" && decide (n_hist < current_iter) &&
        save_iter && save_quantities) = false := by
      rcases hdisj with h | h | h | h
      · have hb : (strategy == "pulay") = false := beq_eq_false_iff_ne.mpr h
        simp [hb]
      · simp [decide_eq_false h]
      · simp [h]
      · simp [h]
    simp only [apply_mixing_strategy, hcond, Bool.false_eq_true, if_false]
  · intro h1 h2 h3 h4 i hi hout
    subst h1 h3 h4
    simp only [apply_mixing_strategy, beq_self_eq_true, decide_eq_true h2,
      Bool.true_and, Bool.and_true, Bool.and_self, if_true]
    rw [getD_mapIdx _ _ i hi]
    rw [if_neg (by omega)]

/-- Witness for C8: with strategy "pulay", enough history
(`current_iter = 2 > n_hist = 1`) and snapshot saving enabled, an entry
outside the core window (here `niv_core = 0`, empty window) passes through
from `sigma_new` unchanged. -/
theorem claim_C8_witness :
    (apply_mixing_strategy "pulay" (1/2) 1 2 true true 0 [] [⟨2, 0⟩, ⟨3, 0⟩]
      [⟨9, 0⟩]).getD 0 0 = ⟨2, 0⟩ :=
  (claim_C8_pulay_activation "pulay" (1/2) 1 2 true true 0 [] [⟨2, 0⟩, ⟨3, 0⟩]
    [⟨9, 0⟩]).2.2 rfl (by omega) rfl rfl 0 (by norm_num) (Or.inl (by norm_num))

/-- C8 counterexample: strategy "pulay", history length 1, current iteration
2 > 1 — per the claim the Pulay update would have to be applied — but with
iteration snapshots disabled (`save_iter = false`) the code falls back to
linear mixing: the call returns the linear mix, which differs from what the
very same call produces with snapshots enabled (the Pulay window write). -/
theorem claim_C8_counterexample :
    apply_mixing_strategy "pulay" (1/2) 1 2 false true 1 [⟨5, 0⟩, ⟨6, 0⟩]
      [⟨10, 0⟩, ⟨20, 0⟩, ⟨30, 0⟩, ⟨40, 0⟩] [⟨0, 0⟩, ⟨0, 0⟩, ⟨0, 0⟩, ⟨0, 0⟩] =
      [⟨5, 0⟩, ⟨10, 0⟩, ⟨15, 0⟩, ⟨20, 0⟩] ∧
    apply_mixing_strategy "pulay" (1/2) 1 2 true true 1 [⟨5, 0⟩, ⟨6, 0⟩]
      [⟨10, 0⟩, ⟨20, 0⟩, ⟨30, 0⟩, ⟨40, 0⟩] [⟨0, 0⟩, ⟨0, 0⟩, ⟨0, 0⟩, ⟨0, 0⟩] =
      [⟨10, 0⟩, ⟨5, 0⟩, ⟨6, 0⟩, ⟨40, 0⟩] ∧
    ([⟨(5 : ℚ), 0⟩, ⟨10, 0⟩, ⟨15, 0⟩, ⟨20, 0⟩] : List Cx) ≠
      [⟨10, 0⟩, ⟨5, 0⟩, ⟨6, 0⟩, ⟨40, 0⟩] := by
  refine ⟨?_, ?_, ?_⟩
  · norm_num [apply_mixing_strategy, Cx.rsmul, Cx.add_def, Cx.re_mk, Cx.im_mk]
  · norm_num [apply_mixing_strategy, List.mapIdx_cons, Cx.add_def, Cx.re_mk, Cx.im_mk]
  · simp only [ne_eq, List.cons.injEq, Cx.mk.injEq]
    norm_num

end DGA
